import Mathlib

/-!
Shallow embedding of `src/third.rs`: a persistent, reference-counted
singly linked list (`List<T>` over `Rc<Node<T>>`).

`Rc` cells are modelled by an explicit heap: a finite association list
from addresses (`Nat`) to nodes, each node carrying its element, its
`next` link and its reference count.  A `Link<T> = Option<Rc<Node<T>>>`
becomes `Option Nat` (an optional address), and a `List<T>` handle is
identified with its `head` link.  Every operation of the source is
translated to a function that threads the heap explicitly.
-/

namespace Third

/-- Address-based model of `Link<T> = Option<Rc<Node<T>>>`: an optional
heap address of the first node. -/
abbrev Link := Option Nat

/-- Model of `Node<T>` together with the bookkeeping of its enclosing
`Rc` cell: `elem` and `next` are the struct fields of the source,
`rc` is the strong reference count of the `Rc` that owns this node. -/
structure Node (α : Type) where
  elem : α
  next : Link
  rc : Nat
deriving DecidableEq, Repr

/-- Association-list lookup of the node stored at address `a` (the first
binding wins, as in a heap where addresses are unique). -/
def lookupA {α : Type} : List (Nat × Node α) → Nat → Option (Node α)
  | [], _ => none
  | p :: rest, a => if p.fst = a then some p.snd else lookupA rest a

/-- Deallocation: erase every binding of address `a` from the store. -/
def removeA {α : Type} : List (Nat × Node α) → Nat → List (Nat × Node α)
  | [], _ => []
  | p :: rest, a =>
    if p.fst = a then removeA rest a else p :: removeA rest a

/-- Decrement the reference count of the node at address `a`
(models dropping one `Rc` clone pointing at it). -/
def decRcA {α : Type} : List (Nat × Node α) → Nat → List (Nat × Node α)
  | [], _ => []
  | p :: rest, a =>
    (if p.fst = a then (p.fst, ⟨p.snd.elem, p.snd.next, p.snd.rc - 1⟩) else p)
      :: decRcA rest a

/-- Increment the reference count of the node at address `a`
(models `Rc::clone` of a link pointing at it). -/
def incRcA {α : Type} : List (Nat × Node α) → Nat → List (Nat × Node α)
  | [], _ => []
  | p :: rest, a =>
    (if p.fst = a then (p.fst, ⟨p.snd.elem, p.snd.next, p.snd.rc + 1⟩) else p)
      :: incRcA rest a

/-- The model of the `Rc` heap: the allocated nodes plus a supply of
fresh addresses (`fresh` is strictly above every allocated address in
every heap reachable by the API). -/
structure Heap (α : Type) where
  mem : List (Nat × Node α)
  fresh : Nat
deriving DecidableEq, Repr

/-- Dereference an address in the heap. -/
def Heap.get {α : Type} (h : Heap α) (a : Nat) : Option (Node α) :=
  lookupA h.mem a

/-- Heap after deallocating the node at `a`. -/
def Heap.removeAddr {α : Type} (h : Heap α) (a : Nat) : Heap α :=
  ⟨removeA h.mem a, h.fresh⟩

/-- Heap after decrementing the reference count at `a`. -/
def Heap.decRc {α : Type} (h : Heap α) (a : Nat) : Heap α :=
  ⟨decRcA h.mem a, h.fresh⟩

/-- Heap after incrementing the reference count at `a`. -/
def Heap.incRc {α : Type} (h : Heap α) (a : Nat) : Heap α :=
  ⟨incRcA h.mem a, h.fresh⟩

/-- The empty heap: no allocations, addresses start at 0. -/
def emptyHeap (α : Type) : Heap α := ⟨[], 0⟩

/-- `List::new`: the empty list handle (`head: None`).  Allocates nothing. -/
def new : Link := none

/-- `List::prepend`: allocate exactly one new node whose `next` is a clone
of the receiver's head (`self.head.clone()` increments the old head's
reference count when it is `Some`), and return the heap together with the
new handle.  The receiver link `l` is untouched. -/
def prepend {α : Type} (h : Heap α) (l : Link) (x : α) : Heap α × Link :=
  let h1 := match l with
    | none => h
    | some a => h.incRc a
  (⟨(h1.fresh, ⟨x, l, 1⟩) :: h1.mem, h1.fresh + 1⟩, some h1.fresh)

/-- `List::tail`: `self.head.as_ref().and_then(|node| node.next.clone())` —
a new handle whose head is the current head's `next` (cloning the `Rc`
increments that node's count); the empty list gives the empty list.
A dangling address cannot occur in the source (an `Rc` borrow is always
valid); the model returns the empty list there. -/
def tail {α : Type} (h : Heap α) (l : Link) : Heap α × Link :=
  match l with
  | none => (h, none)
  | some a =>
    match h.get a with
    | none => (h, none)
    | some node =>
      match node.next with
      | none => (h, none)
      | some b => (h.incRc b, some b)

/-- `List::head`: `self.head.as_ref().map(|node| &node.elem)` — the first
element, or `none` for the empty list.  (The inner dereference cannot fail
in the source; the model folds a dangling address into `none`.) -/
def head {α : Type} (h : Heap α) (l : Link) : Option α :=
  l.bind fun a => (h.get a).map Node.elem

/-- One bound needed for `drop`'s termination measure: dereferencing
succeeds only for an address actually present in the store, so erasing it
strictly shrinks the store. -/
theorem removeA_length_le {α : Type} (mem : List (Nat × Node α)) (a : Nat) :
    (removeA mem a).length ≤ mem.length := by
  induction mem with
  | nil => simp [removeA]
  | cons p rest ih =>
    by_cases hp : p.fst = a
    · simp [removeA, hp]
      omega
    · simp [removeA, hp]
      omega

theorem removeA_length_lt {α : Type} {mem : List (Nat × Node α)} {a : Nat}
    {node : Node α} (hg : lookupA mem a = some node) :
    (removeA mem a).length < mem.length := by
  induction mem with
  | nil => simp [lookupA] at hg
  | cons p rest ih =>
    by_cases hp : p.fst = a
    · simp [removeA, hp]
      exact Nat.lt_succ_of_le (removeA_length_le rest a)
    · simp [lookupA, hp] at hg
      simp [removeA, hp]
      exact ih hg

/-- `impl Drop for List`: the iterative teardown loop.  `self.head.take()`
hands the loop the handle's head link; each iteration tries
`Rc::try_unwrap` on the current node: if its count is exactly 1 the node
is deallocated, its `next` is extracted (`node.next.take()` moves the
`Rc` out without touching the successor's count) and the loop continues
there; otherwise the failed `try_unwrap` returns the `Rc`, whose drop
decrements the count, and the loop stops (`break`).  A dangling address
cannot occur in the source; the model stops there. -/
def drop {α : Type} (h : Heap α) (l : Link) : Heap α :=
  match l with
  | none => h
  | some a =>
    match hg : h.get a with
    | none => h
    | some node =>
      if node.rc == 1 then
        drop (h.removeAddr a) node.next
      else
        h.decRc a
termination_by h.mem.length
decreasing_by
  simp [Heap.removeAddr]
  exact removeA_length_lt hg

/-- Model of `Iter<'a, T>`: the cursor is the address of the node the
borrowed reference points at (`next: Option<&'a Node<T>>`). -/
structure Iter where
  next : Link
deriving DecidableEq, Repr

/-- `List::iter`: `Iter { next: self.head.as_deref() }` — the cursor
starts at the head; no reference count changes. -/
def iter (l : Link) : Iter := ⟨l⟩

/-- `Iterator::next for Iter`: yield the current node's element and move
the cursor to the node's `next` (`self.next = node.next.as_deref()`),
or yield `none` at the end.  It borrows the heap read-only: no heap is
returned because the source mutates only the iterator.  A dangling
cursor cannot occur in the source; the model ends the iteration there. -/
def iterNext {α : Type} (h : Heap α) (it : Iter) : Option α × Iter :=
  match it.next with
  | none => (none, it)
  | some a =>
    match h.get a with
    | none => (none, ⟨none⟩)
    | some node => (some node.elem, ⟨node.next⟩)

/-- Collect the first `fuel` outputs of the iterator (stopping early when
it yields `none`): the observable contents of a list. -/
def iterN {α : Type} (h : Heap α) (it : Iter) : Nat → List α
  | 0 => []
  | fuel + 1 =>
    match iterNext h it with
    | (none, _) => []
    | (some x, it') => x :: iterN h it' fuel

/-- Advance the iterator `k` times, discarding the outputs. -/
def nextN {α : Type} (h : Heap α) (it : Iter) : Nat → Iter
  | 0 => it
  | k + 1 => nextN h (iterNext h it).2 k

/-- `chainB mem l addrs` holds when following `next` links from `l`
traverses exactly the addresses `addrs`, every one of them allocated,
ending in the empty link.  This is the shape every handle created by the
API has. -/
def chainB {α : Type} (mem : List (Nat × Node α)) : Link → List Nat → Bool
  | none, [] => true
  | none, _ :: _ => false
  | some _, [] => false
  | some a, b :: rest =>
    a == b &&
      (match lookupA mem a with
       | none => false
       | some node => chainB mem node.next rest)

/-- The elements stored along a list of addresses. -/
def elems {α : Type} (mem : List (Nat × Node α)) (addrs : List Nat) : List α :=
  addrs.filterMap fun a => (lookupA mem a).map Node.elem

/-- The reference-count-blind part of a heap cell: element and successor.
Two heaps agreeing on `view` at an address are observationally equal
there. -/
def view {α : Type} (mem : List (Nat × Node α)) (a : Nat) : Option (α × Link) :=
  (lookupA mem a).map fun nd => (nd.elem, nd.next)

/-- A shared suffix is guarded by its first node: some other handle or
node still holds a reference, so its count is at least 2.  (Vacuous for
the empty suffix.) -/
abbrev sharedHeadOk {α : Type} (h : Heap α) (s : List Nat) : Prop :=
  match s with
  | [] => True
  | b :: _ => 2 ≤ ((h.get b).map Node.rc).getD 0

/-- Every allocated address lies below the fresh-address supply. -/
abbrev keysBound {α : Type} (h : Heap α) : Prop :=
  ∀ p ∈ h.mem, p.fst < h.fresh

/-- A well-formed handle: a valid chain of distinct allocated addresses,
all below `fresh`, in a heap whose allocations are all below `fresh`. -/
abbrev goodChain {α : Type} (h : Heap α) (l : Link) (addrs : List Nat) : Prop :=
  chainB h.mem l addrs = true ∧ addrs.Nodup ∧ (∀ a ∈ addrs, a < h.fresh) ∧
    keysBound h

/-- Run a whole sequence of `prepend` calls, threading the heap. -/
def runPrepends {α : Type} (h : Heap α) (l : Link) : List α → Heap α × Link
  | [] => (h, l)
  | x :: xs =>
    let r := prepend h l x
    runPrepends r.1 r.2 xs

/-- Apply `tail` `k` times, threading the heap. -/
def runTails {α : Type} (h : Heap α) (l : Link) : Nat → Heap α × Link
  | 0 => (h, l)
  | k + 1 =>
    let r := tail h l
    runTails r.1 r.2 k

/-- An exclusively owned straight chain of `n` nodes: addresses
`n-1, n-2, …, 0`, node `i` holding element `i`, pointing down to `i-1`,
every count 1. -/
def mkChainLink (n : Nat) : Link :=
  match n with
  | 0 => none
  | m + 1 => some m

def mkChainMem : Nat → List (Nat × Node Nat)
  | 0 => []
  | n + 1 => (n, ⟨n, mkChainLink n, 1⟩) :: mkChainMem n

/-- One iteration of the teardown loop as a step function on the loop
state (heap, current link); a finished loop is a fixed point with the
link `none`.  The `break` of the source is modelled by setting the link
to `none` after the count decrement. -/
def dropStep {α : Type} (s : Heap α × Link) : Heap α × Link :=
  match s.2 with
  | none => s
  | some a =>
    match s.1.get a with
    | none => (s.1, none)
    | some node =>
      if node.rc == 1 then (s.1.removeAddr a, node.next)
      else (s.1.decRc a, none)

/-! Basic lemmas about the heap primitives. -/

theorem lookupA_removeA_self {α : Type} (mem : List (Nat × Node α)) (a : Nat) :
    lookupA (removeA mem a) a = none := by
  induction mem with
  | nil => simp [removeA, lookupA]
  | cons p rest ih =>
    by_cases hp : p.fst = a
    · simpa [removeA, hp] using ih
    · simpa [removeA, lookupA, hp] using ih

theorem lookupA_removeA_ne {α : Type} (mem : List (Nat × Node α)) {a x : Nat}
    (hx : x ≠ a) : lookupA (removeA mem a) x = lookupA mem x := by
  induction mem with
  | nil => simp [removeA]
  | cons p rest ih =>
    by_cases hp : p.fst = a
    · rw [removeA, if_pos hp, ih, lookupA, if_neg (by omega)]
    · rw [removeA, if_neg hp, lookupA, lookupA]
      by_cases hpx : p.fst = x
      · rw [if_pos hpx, if_pos hpx]
      · rw [if_neg hpx, if_neg hpx, ih]

theorem lookupA_decRcA_self {α : Type} (mem : List (Nat × Node α)) (a : Nat) :
    lookupA (decRcA mem a) a =
      (lookupA mem a).map fun nd => ⟨nd.elem, nd.next, nd.rc - 1⟩ := by
  induction mem with
  | nil => simp [decRcA, lookupA]
  | cons p rest ih =>
    by_cases hp : p.fst = a
    · simp [decRcA, lookupA, hp]
    · simpa [decRcA, lookupA, hp] using ih

theorem lookupA_decRcA_ne {α : Type} (mem : List (Nat × Node α)) {a x : Nat}
    (hx : x ≠ a) : lookupA (decRcA mem a) x = lookupA mem x := by
  induction mem with
  | nil => simp [decRcA]
  | cons p rest ih =>
    by_cases hp : p.fst = a
    · rw [decRcA, if_pos hp, lookupA, lookupA, if_neg (by omega),
        if_neg (by omega), ih]
    · rw [decRcA, if_neg hp, lookupA, lookupA]
      by_cases hpx : p.fst = x
      · rw [if_pos hpx, if_pos hpx]
      · rw [if_neg hpx, if_neg hpx, ih]

theorem lookupA_incRcA_self {α : Type} (mem : List (Nat × Node α)) (a : Nat) :
    lookupA (incRcA mem a) a =
      (lookupA mem a).map fun nd => ⟨nd.elem, nd.next, nd.rc + 1⟩ := by
  induction mem with
  | nil => simp [incRcA, lookupA]
  | cons p rest ih =>
    by_cases hp : p.fst = a
    · simp [incRcA, lookupA, hp]
    · simpa [incRcA, lookupA, hp] using ih

theorem lookupA_incRcA_ne {α : Type} (mem : List (Nat × Node α)) {a x : Nat}
    (hx : x ≠ a) : lookupA (incRcA mem a) x = lookupA mem x := by
  induction mem with
  | nil => simp [incRcA]
  | cons p rest ih =>
    by_cases hp : p.fst = a
    · rw [incRcA, if_pos hp, lookupA, lookupA, if_neg (by omega),
        if_neg (by omega), ih]
    · rw [incRcA, if_neg hp, lookupA, lookupA]
      by_cases hpx : p.fst = x
      · rw [if_pos hpx, if_pos hpx]
      · rw [if_neg hpx, if_neg hpx, ih]

theorem view_removeA_ne {α : Type} (mem : List (Nat × Node α)) {a x : Nat}
    (hx : x ≠ a) : view (removeA mem a) x = view mem x := by
  simp [view, lookupA_removeA_ne mem hx]

theorem view_removeA_self {α : Type} (mem : List (Nat × Node α)) (a : Nat) :
    view (removeA mem a) a = none := by
  simp [view, lookupA_removeA_self]

theorem view_decRcA {α : Type} (mem : List (Nat × Node α)) (a x : Nat) :
    view (decRcA mem a) x = view mem x := by
  by_cases hx : x = a
  · subst hx
    rw [view, lookupA_decRcA_self]
    cases hl : lookupA mem x <;> simp [view, hl]
  · simp [view, lookupA_decRcA_ne mem hx]

theorem view_incRcA {α : Type} (mem : List (Nat × Node α)) (a x : Nat) :
    view (incRcA mem a) x = view mem x := by
  by_cases hx : x = a
  · subst hx
    rw [view, lookupA_incRcA_self]
    cases hl : lookupA mem x <;> simp [view, hl]
  · simp [view, lookupA_incRcA_ne mem hx]

/-- A chain only inspects the views of its own addresses, so any heap
agreeing on those views carries the same chain. -/
theorem chainB_congr {α : Type} {m1 m2 : List (Nat × Node α)}
    (addrs : List Nat) :
    ∀ l, chainB m1 l addrs = true →
      (∀ a ∈ addrs, view m2 a = view m1 a) → chainB m2 l addrs = true := by
  induction addrs with
  | nil =>
    intro l hc _
    cases l with
    | none => simp [chainB]
    | some a => simp [chainB] at hc
  | cons b rest ih =>
    intro l hc hv
    cases l with
    | none => simp [chainB] at hc
    | some a =>
      simp only [chainB, Bool.and_eq_true, beq_iff_eq] at hc
      obtain ⟨hab, hc⟩ := hc
      subst hab
      cases hl1 : lookupA m1 a with
      | none => rw [hl1] at hc; simp at hc
      | some nd =>
        rw [hl1] at hc
        have hva := hv a (by simp)
        simp only [view, hl1] at hva
        cases hl2 : lookupA m2 a with
        | none => rw [hl2] at hva; simp at hva
        | some nd2 =>
          rw [hl2] at hva
          simp at hva
          obtain ⟨helem, hnext⟩ := hva
          simp only [chainB, beq_self_eq_true, Bool.true_and, hl2, hnext]
          exact ih nd.next hc (fun x hx => hv x (by simp [hx]))

/-- The iterator only inspects the views of the chain's addresses, so
any heap agreeing on those views yields the same outputs at every fuel. -/
theorem iterN_congr {α : Type} {h1 h2 : Heap α} (addrs : List Nat) :
    ∀ l fuel, chainB h1.mem l addrs = true →
      (∀ a ∈ addrs, view h2.mem a = view h1.mem a) →
      iterN h2 (iter l) fuel = iterN h1 (iter l) fuel := by
  induction addrs with
  | nil =>
    intro l fuel hc _
    cases l with
    | none =>
      cases fuel <;> simp [iterN, iterNext, iter]
    | some a => simp [chainB] at hc
  | cons b rest ih =>
    intro l fuel hc hv
    cases l with
    | none => simp [chainB] at hc
    | some a =>
      simp only [chainB, Bool.and_eq_true, beq_iff_eq] at hc
      obtain ⟨hab, hc⟩ := hc
      subst hab
      cases hl1 : lookupA h1.mem a with
      | none => rw [hl1] at hc; simp at hc
      | some nd =>
        rw [hl1] at hc
        have hva := hv a (by simp)
        simp only [view, hl1] at hva
        cases hl2 : lookupA h2.mem a with
        | none => rw [hl2] at hva; simp at hva
        | some nd2 =>
          rw [hl2] at hva
          simp at hva
          obtain ⟨helem, hnext⟩ := hva
          cases fuel with
          | zero => simp [iterN]
          | succ fuel =>
            simp only [iterN, iterNext, iter, Heap.get, hl1, hl2, helem,
              hnext]
            have := ih nd.next fuel hc (fun x hx => hv x (by simp [hx]))
            simp only [iter] at this
            rw [this]

/-- The elements along a set of addresses depend only on their views. -/
theorem elems_congr {α : Type} {m1 m2 : List (Nat × Node α)}
    (addrs : List Nat) (hv : ∀ a ∈ addrs, view m2 a = view m1 a) :
    elems m2 addrs = elems m1 addrs := by
  induction addrs with
  | nil => simp [elems]
  | cons b rest ih =>
    have hvb := hv b (by simp)
    simp only [elems, List.filterMap_cons]
    have : (lookupA m2 b).map Node.elem = (lookupA m1 b).map Node.elem := by
      cases hl1 : lookupA m1 b <;> cases hl2 : lookupA m2 b <;>
        rw [view, view, hl1, hl2] at hvb <;> simp at hvb <;> simp [hvb]
    rw [this]
    have ihr := ih (fun x hx => hv x (by simp [hx]))
    simp only [elems] at ihr
    rw [ihr]

/-- With enough fuel, iterating from a valid chain produces exactly the
elements stored along the chain. -/
theorem iterN_chain_elems {α : Type} {h : Heap α} (addrs : List Nat) :
    ∀ l fuel, chainB h.mem l addrs = true → addrs.length ≤ fuel →
      iterN h (iter l) fuel = elems h.mem addrs := by
  induction addrs with
  | nil =>
    intro l fuel hc _
    cases l with
    | none => cases fuel <;> simp [iterN, iterNext, iter, elems]
    | some a => simp [chainB] at hc
  | cons b rest ih =>
    intro l fuel hc hfuel
    cases l with
    | none => simp [chainB] at hc
    | some a =>
      simp only [chainB, Bool.and_eq_true, beq_iff_eq] at hc
      obtain ⟨hab, hc⟩ := hc
      subst hab
      cases hl : lookupA h.mem a with
      | none => rw [hl] at hc; simp at hc
      | some nd =>
        rw [hl] at hc
        cases fuel with
        | zero => simp at hfuel
        | succ fuel =>
          simp only [iterN, iterNext, iter, Heap.get, hl]
          have := ih nd.next fuel hc (by simpa using hfuel)
          simp only [iter] at this
          rw [this]
          simp [elems, hl]

/-- Along a valid chain every lookup succeeds, so there is exactly one
element per node. -/
theorem elems_length {α : Type} {mem : List (Nat × Node α)}
    (addrs : List Nat) :
    ∀ l, chainB mem l addrs = true →
      (elems mem addrs).length = addrs.length := by
  induction addrs with
  | nil => intro l _; simp [elems]
  | cons b rest ih =>
    intro l hc
    cases l with
    | none => simp [chainB] at hc
    | some a =>
      simp only [chainB, Bool.and_eq_true, beq_iff_eq] at hc
      obtain ⟨hab, hc⟩ := hc
      subst hab
      cases hl : lookupA mem a with
      | none => rw [hl] at hc; simp at hc
      | some nd =>
        rw [hl] at hc
        simp [elems, hl]
        have := ih nd.next hc
        simpa [elems] using this

/-- `head` depends only on the view at the head address. -/
theorem head_eq_of_view {α : Type} {h1 h2 : Heap α} {a : Nat}
    (hv : view h2.mem a = view h1.mem a) :
    Third.head h2 (some a) = Third.head h1 (some a) := by
  show (h2.get a).map Node.elem = (h1.get a).map Node.elem
  simp only [Heap.get]
  cases hl1 : lookupA h1.mem a with
  | none =>
    cases hl2 : lookupA h2.mem a with
    | none => rfl
    | some nd2 =>
      simp only [view, hl1, hl2] at hv
      simp at hv
  | some nd =>
    cases hl2 : lookupA h2.mem a with
    | none =>
      simp only [view, hl1, hl2] at hv
      simp at hv
    | some nd2 =>
      simp only [view, hl1, hl2] at hv
      simp at hv
      simp [hv.1]

/-! Unfolding equations for the teardown loop. -/

theorem drop_none {α : Type} (h : Heap α) : drop h none = h := by
  rw [drop]

theorem drop_some {α : Type} (h : Heap α) (a : Nat) {node : Node α}
    (hg : h.get a = some node) :
    drop h (some a) =
      if node.rc == 1 then drop (h.removeAddr a) node.next
      else h.decRc a := by
  rw [drop]
  split <;> simp_all

theorem drop_dangling {α : Type} (h : Heap α) (a : Nat)
    (hg : h.get a = none) : drop h (some a) = h := by
  rw [drop]
  split <;> simp_all

theorem lookupA_eq_none_of_view {α : Type} {mem : List (Nat × Node α)}
    {x : Nat} (hv : view mem x = none) : lookupA mem x = none := by
  simp only [view] at hv
  cases hl : lookupA mem x with
  | none => rfl
  | some nd => rw [hl] at hv; simp at hv

/-- Core specification of the teardown loop.  Dropping a handle whose
chain splits into an exclusively owned prefix `p` (every count 1)
followed by a shared suffix `s` (first node's count at least 2)
deallocates exactly the addresses of `p`, leaves the view of every other
address untouched (the suffix head only loses one reference count), and
never touches the fresh-address supply. -/
theorem drop_spec {α : Type} (s : List Nat) (p : List Nat) :
    ∀ (h : Heap α) (l : Link),
      chainB h.mem l (p ++ s) = true →
      (∀ a ∈ p, (h.get a).map Node.rc = some 1) →
      p.Nodup →
      (∀ a ∈ p, a ∉ s) →
      sharedHeadOk h s →
      (drop h l).fresh = h.fresh ∧
      (∀ a ∈ p, (drop h l).get a = none) ∧
      (∀ a, a ∉ p → view (drop h l).mem a = view h.mem a) := by
  induction p with
  | nil =>
    intro h l hc hrc hnd hds hsh
    cases s with
    | nil =>
      cases l with
      | none =>
        rw [drop_none]
        exact ⟨rfl, by simp, fun a _ => rfl⟩
      | some a => simp [chainB] at hc
    | cons b s' =>
      cases l with
      | none => simp [chainB] at hc
      | some a =>
        simp only [List.nil_append, chainB, Bool.and_eq_true, beq_iff_eq]
          at hc
        obtain ⟨hab, hc⟩ := hc
        subst hab
        cases hl : lookupA h.mem a with
        | none => rw [hl] at hc; simp at hc
        | some nd =>
          have hrc2 : 2 ≤ nd.rc := by
            simpa [sharedHeadOk, Heap.get, hl] using hsh
          have hcond : ¬((nd.rc == 1) = true) := by
            simp
            omega
          rw [drop_some h a (show h.get a = some nd from hl), if_neg hcond]
          refine ⟨rfl, by simp, fun x _ => ?_⟩
          exact view_decRcA h.mem a x
  | cons c p' ih =>
    intro h l hc hrc hnd hds hsh
    cases l with
    | none => simp [chainB] at hc
    | some a0 =>
      simp only [List.cons_append, chainB, Bool.and_eq_true, beq_iff_eq]
        at hc
      obtain ⟨ha0, hc⟩ := hc
      subst ha0
      cases hl : lookupA h.mem a0 with
      | none => rw [hl] at hc; simp at hc
      | some nd =>
        rw [hl] at hc
        have hrc1 : nd.rc = 1 := by
          have := hrc a0 (by simp)
          simpa [Heap.get, hl] using this
        rw [drop_some h a0 (show h.get a0 = some nd from hl),
          if_pos (by simp [hrc1])]
        have hnotp : a0 ∉ p' := (List.nodup_cons.mp hnd).1
        have hnots : a0 ∉ s := hds a0 (by simp)
        have hchain' :
            chainB (h.removeAddr a0).mem nd.next (p' ++ s) = true := by
          apply chainB_congr (p' ++ s) nd.next hc
          intro x hx
          apply view_removeA_ne
          intro hxc
          subst hxc
          rcases List.mem_append.mp hx with hx | hx
          · exact hnotp hx
          · exact hnots hx
        have hrc' :
            ∀ x ∈ p', ((h.removeAddr a0).get x).map Node.rc = some 1 := by
          intro x hx
          have hxc : x ≠ a0 := fun he => hnotp (he ▸ hx)
          show (lookupA (removeA h.mem a0) x).map Node.rc = some 1
          rw [lookupA_removeA_ne h.mem hxc]
          exact hrc x (by simp [hx])
        have hsh' : sharedHeadOk (h.removeAddr a0) s := by
          cases s with
          | nil => trivial
          | cons b s' =>
            have hbc : b ≠ a0 := by
              intro he
              exact hnots (by simp [he])
            show 2 ≤ ((lookupA (removeA h.mem a0) b).map Node.rc).getD 0
            rw [lookupA_removeA_ne h.mem hbc]
            exact hsh
        obtain ⟨ihfresh, ihnone, ihview⟩ :=
          ih (h.removeAddr a0) nd.next hchain' hrc'
            (List.nodup_cons.mp hnd).2 (fun x hx => hds x (by simp [hx]))
            hsh'
        refine ⟨ihfresh, ?_, ?_⟩
        · intro x hx
          rcases List.mem_cons.mp hx with hx | hx
          · subst hx
            have hv := ihview x hnotp
            have hnone : view (h.removeAddr x).mem x = none :=
              view_removeA_self h.mem x
            rw [hnone] at hv
            exact lookupA_eq_none_of_view hv
          · exact ihnone x hx
        · intro x hx
          rw [ihview x (fun hxp => hx (by simp [hxp]))]
          exact view_removeA_ne h.mem (fun he => hx (by simp [he]))

/-! Helper lemmas about chains and the constructors. -/

theorem lookupA_cons_self {α : Type} (k : Nat) (nd : Node α)
    (mem : List (Nat × Node α)) : lookupA ((k, nd) :: mem) k = some nd := by
  simp [lookupA]

theorem lookupA_cons_ne {α : Type} {k a : Nat} (nd : Node α)
    (mem : List (Nat × Node α)) (hk : k ≠ a) :
    lookupA ((k, nd) :: mem) a = lookupA mem a := by
  simp [lookupA, hk]

theorem chainB_some_shape {α : Type} {mem : List (Nat × Node α)} {c : Nat}
    {addrs : List Nat} (hc : chainB mem (some c) addrs = true) :
    ∃ rest, addrs = c :: rest := by
  cases addrs with
  | nil => simp [chainB] at hc
  | cons b rest =>
    simp only [chainB, Bool.and_eq_true, beq_iff_eq] at hc
    exact ⟨rest, by rw [hc.1]⟩

theorem chainB_none_shape {α : Type} {mem : List (Nat × Node α)}
    {addrs : List Nat} (hc : chainB mem none addrs = true) : addrs = [] := by
  cases addrs with
  | nil => rfl
  | cons b rest => simp [chainB] at hc

/-- The result handle and heap shape of `prepend`. -/
theorem prepend_snd {α : Type} (h : Heap α) (l : Link) (x : α) :
    (prepend h l x).2 = some h.fresh := by
  cases l <;> rfl

theorem prepend_fst_fresh {α : Type} (h : Heap α) (l : Link) (x : α) :
    (prepend h l x).1.fresh = h.fresh + 1 := by
  cases l <;> rfl

theorem lookupA_prepend_fresh {α : Type} (h : Heap α) (l : Link) (x : α) :
    lookupA (prepend h l x).1.mem h.fresh = some ⟨x, l, 1⟩ := by
  cases l with
  | none => exact lookupA_cons_self h.fresh ⟨x, none, 1⟩ h.mem
  | some b => exact lookupA_cons_self h.fresh ⟨x, some b, 1⟩ (incRcA h.mem b)

/-- `prepend` leaves the view of every previously allocated address
unchanged: the one new cell lives at the fresh address, and the only other
change is the reference-count bump on the old head. -/
theorem view_prepend {α : Type} (h : Heap α) (l : Link) (x : α) (a : Nat)
    (ha : a ≠ h.fresh) : view (prepend h l x).1.mem a = view h.mem a := by
  cases l with
  | none =>
    show view ((h.fresh, ⟨x, none, 1⟩) :: h.mem) a = view h.mem a
    simp [view, lookupA_cons_ne _ _ (fun he => ha he.symm)]
  | some b =>
    show view ((h.fresh, ⟨x, some b, 1⟩) :: incRcA h.mem b) a = view h.mem a
    rw [view, lookupA_cons_ne _ _ (fun he => ha he.symm)]
    exact view_incRcA h.mem b a

/-- `head` is the first element along the chain. -/
theorem head_elems {α : Type} {h : Heap α} {l : Link} {addrs : List Nat}
    (hc : chainB h.mem l addrs = true) :
    Third.head h l = (elems h.mem addrs).head? := by
  cases l with
  | none =>
    rw [chainB_none_shape hc]
    rfl
  | some c =>
    obtain ⟨rest, hr⟩ := chainB_some_shape hc
    subst hr
    simp only [chainB, beq_self_eq_true, Bool.true_and] at hc
    cases hl : lookupA h.mem c with
    | none => rw [hl] at hc; simp at hc
    | some nd => simp [Third.head, Heap.get, elems, hl]

theorem elems_tail_of_chain {α : Type} {h : Heap α} {l : Link}
    {addrs : List Nat} (hc : chainB h.mem l addrs = true) :
    elems h.mem addrs.tail = (elems h.mem addrs).tail := by
  cases addrs with
  | nil => rfl
  | cons c rest =>
    cases l with
    | none => simp [chainB] at hc
    | some a =>
      simp only [chainB, Bool.and_eq_true, beq_iff_eq] at hc
      obtain ⟨hab, hc⟩ := hc
      subst hab
      cases hl : lookupA h.mem a with
      | none => rw [hl] at hc; simp at hc
      | some nd => simp [elems, hl]

theorem mem_incRcA_fst {α : Type} {mem : List (Nat × Node α)} {a : Nat}
    {P : Nat → Prop} (hp : ∀ p ∈ mem, P p.fst) :
    ∀ p ∈ incRcA mem a, P p.fst := by
  induction mem with
  | nil => simp [incRcA]
  | cons q rest ih =>
    intro p hpmem
    simp only [incRcA, List.mem_cons] at hpmem
    rcases hpmem with hpmem | hpmem
    · by_cases hq : q.fst = a
      · rw [hpmem]
        simp only [hq, if_pos]
        simpa [hq] using hp q (by simp)
      · rw [hpmem]
        simp only [hq, if_neg, not_false_iff]
        exact hp q (by simp)
    · exact ih (fun r hr => hp r (by simp [hr])) p hpmem

/-! The teardown loop as an iterated step function, and the long
exclusively-owned chain family. -/

/-- On an exclusively owned chain, the teardown is literally the
`(length + 1)`-fold iteration of the constant-state loop step, and the
final state has an empty current link: the loop has finished. -/
theorem drop_eq_iterate {α : Type} (p : List Nat) :
    ∀ (h : Heap α) (l : Link),
      chainB h.mem l p = true →
      (∀ a ∈ p, (h.get a).map Node.rc = some 1) →
      p.Nodup →
      dropStep^[p.length + 1] (h, l) = (drop h l, none) := by
  induction p with
  | nil =>
    intro h l hc _ _
    cases l with
    | none =>
      rw [drop_none]
      rfl
    | some a => simp [chainB] at hc
  | cons c p' ih =>
    intro h l hc hrc hnd
    cases l with
    | none => simp [chainB] at hc
    | some a0 =>
      simp only [chainB, Bool.and_eq_true, beq_iff_eq] at hc
      obtain ⟨ha0, hc⟩ := hc
      subst ha0
      cases hl : lookupA h.mem a0 with
      | none => rw [hl] at hc; simp at hc
      | some nd =>
        rw [hl] at hc
        have hrc1 : nd.rc = 1 := by
          have := hrc a0 (by simp)
          simpa [Heap.get, hl] using this
        have hnotp : a0 ∉ p' := (List.nodup_cons.mp hnd).1
        have hstep : dropStep (h, some a0) = (h.removeAddr a0, nd.next) := by
          simp [dropStep, Heap.get, hl, hrc1]
        have hchain' :
            chainB (h.removeAddr a0).mem nd.next p' = true := by
          apply chainB_congr p' nd.next hc
          intro x hx
          exact view_removeA_ne h.mem (fun he => hnotp (he ▸ hx))
        have hrc' :
            ∀ x ∈ p', ((h.removeAddr a0).get x).map Node.rc = some 1 := by
          intro x hx
          have hxc : x ≠ a0 := fun he => hnotp (he ▸ hx)
          show (lookupA (removeA h.mem a0) x).map Node.rc = some 1
          rw [lookupA_removeA_ne h.mem hxc]
          exact hrc x (by simp [hx])
        have hlen : (a0 :: p').length + 1 = (p'.length + 1) + 1 := by simp
        rw [hlen, Function.iterate_succ_apply, hstep,
          ih (h.removeAddr a0) nd.next hchain' hrc'
            (List.nodup_cons.mp hnd).2,
          drop_some h a0 (show h.get a0 = some nd from hl),
          if_pos (by simp [hrc1])]

theorem lookupA_mkChainMem_ge {n a : Nat} (ha : n ≤ a) :
    lookupA (mkChainMem n) a = none := by
  induction n with
  | zero => rfl
  | succ m ih =>
    show lookupA ((m, ⟨m, mkChainLink m, 1⟩) :: mkChainMem m) a = none
    rw [lookupA_cons_ne _ _ (by omega)]
    exact ih (by omega)

theorem removeA_absent {α : Type} {mem : List (Nat × Node α)} {a : Nat}
    (hl : lookupA mem a = none) : removeA mem a = mem := by
  induction mem with
  | nil => rfl
  | cons p rest ih =>
    by_cases hp : p.fst = a
    · rw [lookupA, if_pos hp] at hl
      simp at hl
    · rw [lookupA, if_neg hp] at hl
      rw [removeA, if_neg hp, ih hl]

/-- Dropping the sole handle of an exclusively owned chain of any length
`n` (in particular `n = 100000`) terminates and deallocates every node,
leaving the empty heap. -/
theorem drop_mkChain (n : Nat) :
    ∀ f, drop (⟨mkChainMem n, f⟩ : Heap Nat) (mkChainLink n) =
      (⟨[], f⟩ : Heap Nat) := by
  induction n with
  | zero => intro f; exact drop_none _
  | succ m ih =>
    intro f
    have hget : (⟨mkChainMem (m + 1), f⟩ : Heap Nat).get m =
        some ⟨m, mkChainLink m, 1⟩ := by
      show lookupA ((m, ⟨m, mkChainLink m, 1⟩) :: mkChainMem m) m = _
      exact lookupA_cons_self _ _ _
    have hstep := drop_some (⟨mkChainMem (m + 1), f⟩ : Heap Nat) m hget
    rw [show mkChainLink (m + 1) = some m from rfl, hstep,
      if_pos (by simp)]
    have hrm : removeA (mkChainMem (m + 1)) m = mkChainMem m := by
      show removeA ((m, ⟨m, mkChainLink m, 1⟩) :: mkChainMem m) m
        = mkChainMem m
      rw [removeA, if_pos rfl]
      exact removeA_absent (lookupA_mkChainMem_ge (Nat.le_refl m))
    show drop (⟨removeA (mkChainMem (m + 1)) m, f⟩ : Heap Nat)
      (mkChainLink m) = (⟨[], f⟩ : Heap Nat)
    rw [hrm]
    exact ih f

/-! Preservation of well-formed chains by `prepend` and `tail`. -/

theorem chainB_prepend {α : Type} (h : Heap α) (l : Link) (addrs : List Nat)
    (x : α) (hc : chainB h.mem l addrs = true)
    (hb : ∀ a ∈ addrs, a < h.fresh) :
    chainB (prepend h l x).1.mem (prepend h l x).2 (h.fresh :: addrs)
      = true := by
  rw [prepend_snd]
  simp only [chainB, beq_self_eq_true, Bool.true_and,
    lookupA_prepend_fresh h l x]
  show chainB (prepend h l x).1.mem l addrs = true
  apply chainB_congr addrs l hc
  intro a ha
  exact view_prepend h l x a (by have := hb a ha; omega)

theorem elems_prepend {α : Type} (h : Heap α) (l : Link) (addrs : List Nat)
    (x : α) (hb : ∀ a ∈ addrs, a < h.fresh) :
    elems (prepend h l x).1.mem (h.fresh :: addrs)
      = x :: elems h.mem addrs := by
  simp only [elems, List.filterMap_cons, lookupA_prepend_fresh h l x]
  have : elems (prepend h l x).1.mem addrs = elems h.mem addrs := by
    apply elems_congr
    intro a ha
    exact view_prepend h l x a (by have := hb a ha; omega)
  simpa [elems] using this

theorem goodChain_prepend {α : Type} (h : Heap α) (l : Link)
    (addrs : List Nat) (x : α) (hg : goodChain h l addrs) :
    goodChain (prepend h l x).1 (prepend h l x).2 (h.fresh :: addrs) ∧
    elems (prepend h l x).1.mem (h.fresh :: addrs)
      = x :: elems h.mem addrs := by
  obtain ⟨hc, hnd, hb, hk⟩ := hg
  refine ⟨⟨chainB_prepend h l addrs x hc hb, ?_, ?_, ?_⟩,
    elems_prepend h l addrs x hb⟩
  · exact List.nodup_cons.mpr ⟨fun hmem => by have := hb _ hmem; omega, hnd⟩
  · intro a ha
    rw [prepend_fst_fresh]
    rcases List.mem_cons.mp ha with ha | ha
    · omega
    · have := hb a ha
      omega
  · intro p hp
    rw [prepend_fst_fresh]
    cases l with
    | none =>
      rcases List.mem_cons.mp hp with hp | hp
      · rw [hp]; exact Nat.lt_succ_self _
      · have hpm : p ∈ h.mem := hp
        have := hk p hpm
        omega
    | some b =>
      rcases List.mem_cons.mp hp with hp | hp
      · rw [hp]; exact Nat.lt_succ_self _
      · have hpm : p ∈ incRcA h.mem b := hp
        have := @mem_incRcA_fst _ _ _ (fun k => k < h.fresh) hk p hpm
        omega

/-- `tail` yields a handle for the tail of the chain, changes no view
(the only heap change is a reference-count bump), and preserves `fresh`
and the key bound. -/
theorem tail_chain {α : Type} (h : Heap α) (l : Link) (addrs : List Nat)
    (hc : chainB h.mem l addrs = true) :
    chainB (tail h l).1.mem (tail h l).2 addrs.tail = true ∧
    (∀ a, view (tail h l).1.mem a = view h.mem a) ∧
    (tail h l).1.fresh = h.fresh ∧
    (keysBound h → keysBound (tail h l).1) := by
  cases l with
  | none =>
    rw [chainB_none_shape hc]
    exact ⟨rfl, fun a => rfl, rfl, fun hk => hk⟩
  | some c =>
    obtain ⟨rest, hr⟩ := chainB_some_shape hc
    subst hr
    simp only [chainB, beq_self_eq_true, Bool.true_and] at hc
    cases hl : lookupA h.mem c with
    | none => rw [hl] at hc; simp at hc
    | some nd =>
      rw [hl] at hc
      have hc2 : chainB h.mem nd.next rest = true := hc
      cases hnx : nd.next with
      | none =>
        rw [hnx] at hc2
        have ht : tail h (some c) = (h, none) := by
          simp [tail, Heap.get, hl, hnx]
        rw [ht, chainB_none_shape hc2]
        exact ⟨rfl, fun a => rfl, rfl, fun hk => hk⟩
      | some b =>
        rw [hnx] at hc2
        have ht : tail h (some c) = (h.incRc b, some b) := by
          simp [tail, Heap.get, hl, hnx]
        rw [ht]
        refine ⟨?_, fun a => view_incRcA h.mem b a, rfl, ?_⟩
        · exact chainB_congr rest (some b) hc2
            (fun a _ => view_incRcA h.mem b a)
        · intro hk p hp
          exact @mem_incRcA_fst _ _ _ (fun k => k < h.fresh) hk p hp

theorem goodChain_tail {α : Type} (h : Heap α) (l : Link)
    (addrs : List Nat) (hg : goodChain h l addrs) :
    goodChain (tail h l).1 (tail h l).2 addrs.tail ∧
    elems (tail h l).1.mem addrs.tail = (elems h.mem addrs).tail := by
  obtain ⟨hc, hnd, hb, hk⟩ := hg
  obtain ⟨hc', hv, hf, hkp⟩ := tail_chain h l addrs hc
  refine ⟨⟨hc', ?_, ?_, hkp hk⟩, ?_⟩
  · cases addrs with
    | nil => exact List.nodup_nil
    | cons b r => exact (List.nodup_cons.mp hnd).2
  · intro a ha
    rw [hf]
    exact hb a (List.mem_of_mem_tail ha)
  · rw [elems_congr addrs.tail (fun a _ => hv a)]
    exact elems_tail_of_chain hc

/-! Whole runs of `prepend` and `tail`. -/

theorem runPrepends_spec {α : Type} (xs : List α) :
    ∀ (h : Heap α) (l : Link) (addrs : List Nat), goodChain h l addrs →
      ∃ addrs',
        goodChain (runPrepends h l xs).1 (runPrepends h l xs).2 addrs' ∧
        elems (runPrepends h l xs).1.mem addrs'
          = xs.reverse ++ elems h.mem addrs := by
  induction xs with
  | nil =>
    intro h l addrs hg
    exact ⟨addrs, hg, by simp [runPrepends]⟩
  | cons x xs ih =>
    intro h l addrs hg
    obtain ⟨hg', he'⟩ := goodChain_prepend h l addrs x hg
    obtain ⟨addrs', hg'', he''⟩ :=
      ih (prepend h l x).1 (prepend h l x).2 (h.fresh :: addrs) hg'
    refine ⟨addrs', hg'', ?_⟩
    show elems (runPrepends (prepend h l x).1 (prepend h l x).2 xs).1.mem
      addrs' = (x :: xs).reverse ++ elems h.mem addrs
    rw [he'', he']
    simp

theorem runTails_spec {α : Type} (k : Nat) :
    ∀ (h : Heap α) (l : Link) (addrs : List Nat), goodChain h l addrs →
      goodChain (runTails h l k).1 (runTails h l k).2 (addrs.drop k) ∧
      elems (runTails h l k).1.mem (addrs.drop k)
        = (elems h.mem addrs).drop k := by
  induction k with
  | zero =>
    intro h l addrs hg
    exact ⟨by simpa [runTails] using hg, by simp [runTails]⟩
  | succ k ih =>
    intro h l addrs hg
    obtain ⟨hg', he'⟩ := goodChain_tail h l addrs hg
    obtain ⟨hg'', he''⟩ := ih (tail h l).1 (tail h l).2 addrs.tail hg'
    have hd1 : addrs.tail.drop k = addrs.drop (k + 1) := by
      cases addrs <;> simp
    have hd2 : ((elems h.mem addrs).tail).drop k
        = (elems h.mem addrs).drop (k + 1) := by
      cases elems h.mem addrs <;> simp
    constructor
    · show goodChain (runTails (tail h l).1 (tail h l).2 k).1
        (runTails (tail h l).1 (tail h l).2 k).2 (addrs.drop (k + 1))
      rw [← hd1]
      exact hg''
    · show elems (runTails (tail h l).1 (tail h l).2 k).1.mem
        (addrs.drop (k + 1)) = (elems h.mem addrs).drop (k + 1)
      rw [← hd1, ← hd2, he'', he']

/-! Iterator termination lemmas. -/

theorem nextN_none {α : Type} (h : Heap α) (k : Nat) :
    nextN h ⟨none⟩ k = (⟨none⟩ : Iter) := by
  induction k with
  | zero => rfl
  | succ m ih => exact ih

theorem nextN_add {α : Type} (h : Heap α) (m : Nat) :
    ∀ (it : Iter) (n : Nat),
      nextN h it (m + n) = nextN h (nextN h it m) n := by
  induction m with
  | zero =>
    intro it n
    rw [Nat.zero_add]
    rfl
  | succ m ih =>
    intro it n
    rw [Nat.succ_add]
    show nextN h (iterNext h it).2 (m + n) = _
    rw [ih (iterNext h it).2 n]
    rfl

/-- After exactly one step per chain node the cursor is exhausted. -/
theorem nextN_chain {α : Type} (addrs : List Nat) :
    ∀ (h : Heap α) (l : Link), chainB h.mem l addrs = true →
      nextN h (iter l) addrs.length = (⟨none⟩ : Iter) := by
  induction addrs with
  | nil =>
    intro h l hc
    cases l with
    | none => rfl
    | some a => simp [chainB] at hc
  | cons c rest ih =>
    intro h l hc
    cases l with
    | none => simp [chainB] at hc
    | some a =>
      simp only [chainB, Bool.and_eq_true, beq_iff_eq] at hc
      obtain ⟨hab, hc⟩ := hc
      subst hab
      cases hl : lookupA h.mem a with
      | none => rw [hl] at hc; simp at hc
      | some nd =>
        rw [hl] at hc
        show nextN h (iterNext h (iter (some a))).2 rest.length = _
        have hstep : (iterNext h (iter (some a))).2 = iter nd.next := by
          simp [iterNext, iter, Heap.get, hl]
        rw [hstep]
        exact ih h nd.next hc

/-! Claim theorems. -/

/-- C1: destroying a list handle `l2` whose chain is an exclusively owned
prefix `p` (reference counts 1) followed by a suffix `s` shared with a
still-live handle `l1` deallocates exactly the nodes of `p` and leaves
the shared suffix intact: afterwards `l1`'s `head` and its `iter`
outputs (at every fuel) are exactly what they were before the drop. -/
theorem drop_shared_suffix_frame {α : Type} (h : Heap α) (l1 l2 : Link)
    (p s q : List Nat)
    (hc2 : chainB h.mem l2 (p ++ s) = true)
    (hc1 : chainB h.mem l1 (q ++ s) = true)
    (hrc : ∀ a ∈ p, (h.get a).map Node.rc = some 1)
    (hnd : p.Nodup)
    (hds : ∀ a ∈ p, a ∉ s)
    (hdq : ∀ a ∈ p, a ∉ q)
    (hsh : sharedHeadOk h s) :
    (∀ a ∈ p, (drop h l2).get a = none) ∧
    Third.head (drop h l2) l1 = Third.head h l1 ∧
    (∀ fuel, iterN (drop h l2) (iter l1) fuel = iterN h (iter l1) fuel)
    := by
  obtain ⟨hfresh, hfreed, hview⟩ := drop_spec s p h l2 hc2 hrc hnd hds hsh
  have hvq : ∀ a ∈ q ++ s, view (drop h l2).mem a = view h.mem a := by
    intro a ha
    apply hview
    intro hap
    rcases List.mem_append.mp ha with h1 | h1
    · exact hdq a hap h1
    · exact hds a hap h1
  refine ⟨hfreed, ?_, fun fuel => iterN_congr (q ++ s) l1 fuel hc1 hvq⟩
  cases l1 with
  | none => rfl
  | some c =>
    obtain ⟨rest, hr⟩ := chainB_some_shape hc1
    exact head_eq_of_view (hvq c (by rw [hr]; simp))

/-- Witness for C1: heap with nodes 0 ↦ (10, next 1), 1 ↦ (20, end,
shared rc 2), 2 ↦ (30, next 1); handle 1 is `some 0` (chain [0, 1]),
handle 2 is `some 2` (chain [2, 1]).  Dropping handle 2 frees node 2
only; handle 1 still reads 10 then 20. -/
theorem drop_shared_suffix_frame_witness :
    (drop (⟨[(0, ⟨10, some 1, 1⟩), (1, ⟨20, none, 2⟩),
        (2, ⟨30, some 1, 1⟩)], 3⟩ : Heap Nat) (some 2)).get 2 = none ∧
    Third.head (drop (⟨[(0, ⟨10, some 1, 1⟩), (1, ⟨20, none, 2⟩),
        (2, ⟨30, some 1, 1⟩)], 3⟩ : Heap Nat) (some 2)) (some 0)
      = some 10 ∧
    iterN (drop (⟨[(0, ⟨10, some 1, 1⟩), (1, ⟨20, none, 2⟩),
        (2, ⟨30, some 1, 1⟩)], 3⟩ : Heap Nat) (some 2)) (iter (some 0)) 2
      = [10, 20] := by
  obtain ⟨h1, h2, h3⟩ := drop_shared_suffix_frame
    (⟨[(0, ⟨10, some 1, 1⟩), (1, ⟨20, none, 2⟩),
        (2, ⟨30, some 1, 1⟩)], 3⟩ : Heap Nat)
    (some 0) (some 2) [2] [1] [0] (by decide) (by decide) (by decide)
    (by decide) (by decide) (by decide) (by decide)
  refine ⟨h1 2 (by decide), ?_, ?_⟩
  · rw [h2]; decide
  · rw [h3 2]; decide

/-- C2: teardown is one explicit loop, not recursion along the chain:
on an exclusively owned chain it equals the `(length + 1)`-fold
iteration of the constant-state step function `dropStep` and finishes
with an empty cursor, so its call-stack depth does not grow with the
chain; moreover for the straight chain family of any length `n`
(including `n = 100000`) the drop completes and empties the heap. -/
theorem drop_iterative_oneloop {α : Type} (h : Heap α) (l : Link)
    (addrs : List Nat)
    (hc : chainB h.mem l addrs = true)
    (hrc : ∀ a ∈ addrs, (h.get a).map Node.rc = some 1)
    (hnd : addrs.Nodup) :
    dropStep^[addrs.length + 1] (h, l) = (drop h l, none) ∧
    (∀ (n f : Nat), drop (⟨mkChainMem n, f⟩ : Heap Nat) (mkChainLink n)
      = (⟨[], f⟩ : Heap Nat)) :=
  ⟨drop_eq_iterate addrs h l hc hrc hnd, fun n f => drop_mkChain n f⟩

/-- Witness for C2 on the exclusively owned three-node chain. -/
theorem drop_iterative_oneloop_witness :
    dropStep^[4] ((⟨mkChainMem 3, 3⟩ : Heap Nat), mkChainLink 3)
      = (drop (⟨mkChainMem 3, 3⟩ : Heap Nat) (mkChainLink 3), none) :=
  (drop_iterative_oneloop (⟨mkChainMem 3, 3⟩ : Heap Nat) (mkChainLink 3)
    [2, 1, 0] (by decide) (by decide) (by decide)).1

/-- C4: `head` after `prepend x` is `some x`, whatever the receiver —
in particular after any sequence of prepends ending in `prepend x`. -/
theorem head_prepend {α : Type} (h : Heap α) (l : Link) (x : α) :
    Third.head (prepend h l x).1 (prepend h l x).2 = some x := by
  rw [prepend_snd]
  show ((prepend h l x).1.get h.fresh).map Node.elem = some x
  rw [Heap.get, lookupA_prepend_fresh]
  rfl

/-- C5: `prepend` never mutates the receiver: the receiver handle reads
the same `head` and the same iteration outputs (at every fuel) in the
new heap as in the old one. -/
theorem prepend_receiver_unchanged {α : Type} (h : Heap α) (l : Link)
    (addrs : List Nat) (x : α)
    (hc : chainB h.mem l addrs = true)
    (hb : ∀ a ∈ addrs, a < h.fresh) :
    Third.head (prepend h l x).1 l = Third.head h l ∧
    (∀ fuel, iterN (prepend h l x).1 (iter l) fuel
      = iterN h (iter l) fuel) := by
  have hv : ∀ a ∈ addrs, view (prepend h l x).1.mem a = view h.mem a :=
    fun a ha => view_prepend h l x a (by have := hb a ha; omega)
  constructor
  · cases l with
    | none => rfl
    | some c =>
      obtain ⟨rest, hr⟩ := chainB_some_shape hc
      exact head_eq_of_view (hv c (by rw [hr]; simp))
  · intro fuel
    exact iterN_congr addrs l fuel hc hv

/-- Witness for C5 on a one-node receiver. -/
theorem prepend_receiver_unchanged_witness :
    Third.head
        (prepend (⟨[(0, ⟨7, none, 1⟩)], 1⟩ : Heap Nat) (some 0) 5).1
        (some 0) = some 7 ∧
    iterN (prepend (⟨[(0, ⟨7, none, 1⟩)], 1⟩ : Heap Nat) (some 0) 5).1
        (iter (some 0)) 1 = [7] := by
  obtain ⟨h1, h2⟩ := prepend_receiver_unchanged
    (⟨[(0, ⟨7, none, 1⟩)], 1⟩ : Heap Nat) (some 0) [0] 5 (by decide)
    (by decide)
  refine ⟨?_, ?_⟩
  · rw [h1]; decide
  · rw [h2 1]; decide

/-- C3: `tail` undoes `prepend` — prepending `x` onto any well-formed
handle and then taking `tail` yields exactly the original contents —
and, for a list built by the prepends `xs` from `new`, `k` tails leave
contents `xs.reverse.drop k`: at each step the list as it was before the
most recent prepend, empty after `xs.length` tails, and still empty (with
`head` `none`) for every further tail. -/
theorem prepend_tail_algebra {α : Type} (h : Heap α) (l : Link)
    (addrs : List Nat) (x : α) (hg : goodChain h l addrs) :
    (∀ fuel, addrs.length ≤ fuel →
      iterN (tail (prepend h l x).1 (prepend h l x).2).1
        (iter (tail (prepend h l x).1 (prepend h l x).2).2) fuel
        = elems h.mem addrs) ∧
    (∀ (xs : List α) (k fuel : Nat), xs.length ≤ fuel →
      iterN (runTails (runPrepends (emptyHeap α) new xs).1
          (runPrepends (emptyHeap α) new xs).2 k).1
        (iter (runTails (runPrepends (emptyHeap α) new xs).1
          (runPrepends (emptyHeap α) new xs).2 k).2) fuel
        = xs.reverse.drop k ∧
      Third.head (runTails (runPrepends (emptyHeap α) new xs).1
          (runPrepends (emptyHeap α) new xs).2 k).1
        (runTails (runPrepends (emptyHeap α) new xs).1
          (runPrepends (emptyHeap α) new xs).2 k).2
        = (xs.reverse.drop k).head?) := by
  constructor
  · intro fuel hfuel
    obtain ⟨hgp, hep⟩ := goodChain_prepend h l addrs x hg
    obtain ⟨hgt, het⟩ :=
      goodChain_tail (prepend h l x).1 (prepend h l x).2
        (h.fresh :: addrs) hgp
    have hchain : chainB
        (tail (prepend h l x).1 (prepend h l x).2).1.mem
        (tail (prepend h l x).1 (prepend h l x).2).2 addrs = true :=
      hgt.1
    have het2 : elems (tail (prepend h l x).1 (prepend h l x).2).1.mem
        addrs = (elems (prepend h l x).1.mem (h.fresh :: addrs)).tail :=
      het
    rw [iterN_chain_elems addrs _ fuel hchain hfuel, het2, hep]
    rfl
  · intro xs k fuel hfuel
    have hg0 : goodChain (emptyHeap α) new [] :=
      ⟨rfl, List.nodup_nil, by simp, by simp [emptyHeap, keysBound]⟩
    obtain ⟨addrs', hg', he'⟩ := runPrepends_spec xs (emptyHeap α) new []
      hg0
    have he'2 : elems (runPrepends (emptyHeap α) new xs).1.mem addrs'
        = xs.reverse := by
      rw [he']
      simp [elems, emptyHeap]
    obtain ⟨hg'', he''⟩ := runTails_spec k _ _ addrs' hg'
    have hlen : addrs'.length = xs.length := by
      have h1 := elems_length addrs' _ hg'.1
      rw [he'2] at h1
      simpa using h1.symm
    constructor
    · rw [iterN_chain_elems (addrs'.drop k) _ fuel hg''.1
        (by simp [hlen]; omega), he'', he'2]
    · rw [head_elems hg''.1, he'', he'2]

/-- Witness for C3 on a one-node receiver and element 5. -/
theorem prepend_tail_algebra_witness :
    iterN (tail (prepend (⟨[(0, ⟨7, none, 1⟩)], 1⟩ : Heap Nat)
          (some 0) 5).1
        (prepend (⟨[(0, ⟨7, none, 1⟩)], 1⟩ : Heap Nat) (some 0) 5).2).1
      (iter (tail (prepend (⟨[(0, ⟨7, none, 1⟩)], 1⟩ : Heap Nat)
          (some 0) 5).1
        (prepend (⟨[(0, ⟨7, none, 1⟩)], 1⟩ : Heap Nat) (some 0) 5).2).2)
      1 = elems (⟨[(0, ⟨7, none, 1⟩)], 1⟩ : Heap Nat).mem [0] :=
  (prepend_tail_algebra (⟨[(0, ⟨7, none, 1⟩)], 1⟩ : Heap Nat) (some 0)
    [0] 5 ⟨by decide, by decide, by decide, by decide⟩).1 1 (by decide)

/-- The list of the basics test: `new().prepend(1).prepend(2).prepend(3)`. -/
def ex123 : Heap Nat × Link := runPrepends (emptyHeap Nat) new [1, 2, 3]

def ex123t1 : Heap Nat × Link := tail ex123.1 ex123.2

def ex123t2 : Heap Nat × Link := tail ex123t1.1 ex123t1.2

def ex123t3 : Heap Nat × Link := tail ex123t2.1 ex123t2.2

def ex123t4 : Heap Nat × Link := tail ex123t3.1 ex123t3.2

/-- C6: on `new().prepend(1).prepend(2).prepend(3)` the iterator yields
exactly 3, 2, 1 and then `none`; `head` is `some 3`, after one `tail`
`some 2`, then `some 1`, then `none`, and one more `tail` on the empty
list still gives `none`. -/
theorem iter_heads_123 :
    iterN ex123.1 (iter ex123.2) 3 = [3, 2, 1] ∧
    (iterNext ex123.1 (nextN ex123.1 (iter ex123.2) 3)).1 = none ∧
    Third.head ex123.1 ex123.2 = some 3 ∧
    Third.head ex123t1.1 ex123t1.2 = some 2 ∧
    Third.head ex123t2.1 ex123t2.2 = some 1 ∧
    Third.head ex123t3.1 ex123t3.2 = none ∧
    Third.head ex123t4.1 ex123t4.2 = none := by
  decide

/-- The list built by prepending 3, then 2, then 1:
`new().prepend(3).prepend(2).prepend(1)`. -/
def ex321 : Heap Nat × Link := runPrepends (emptyHeap Nat) new [3, 2, 1]

/-- C7 counterexample: iteration over
`new().prepend(3).prepend(2).prepend(1)` does NOT begin with 1 followed
by 3 — the element after 1 is 2. -/
theorem iter_321_claim_false :
    ¬ (iterN ex321.1 (iter ex321.2) 3).take 2 = [1, 3] := by
  decide

/-- C7 amended: iteration over `new().prepend(3).prepend(2).prepend(1)`
begins with the element 1 followed by the element 2; the full sequence
is 1, 2, 3. -/
theorem iter_321_starts_one_two :
    (iterN ex321.1 (iter ex321.2) 3).take 2 = [1, 2] ∧
    iterN ex321.1 (iter ex321.2) 3 = [1, 2, 3] := by
  decide

/-- C8: the public operations are total on the empty list: `tail` of the
empty list is the empty list with the heap untouched (not an error), and
`head` of the empty list is the absent value `none` (not an error). -/
theorem empty_list_total {α : Type} (h : Heap α) :
    tail h new = (h, new) ∧ Third.head h new = none :=
  ⟨rfl, rfl⟩

/-- C9: iteration over a valid chain is finite with exactly one element
per node, head to tail: with enough fuel it returns precisely the chain's
stored elements (as many as there are nodes), the cursor is exhausted
after one step per node, and every further step keeps yielding `none`.
(`iterNext` takes the heap read-only and returns only a value and a new
cursor — mirroring the source, where advancing borrows the list and can
change neither the nodes nor any reference count — and `iter` is a pure
function of the handle, so two iterators from the same handle are equal
and independent: restartability is structural.) -/
theorem iter_finite_one_per_node {α : Type} (h : Heap α) (l : Link)
    (addrs : List Nat) (hc : chainB h.mem l addrs = true) :
    (∀ fuel, addrs.length ≤ fuel →
      iterN h (iter l) fuel = elems h.mem addrs) ∧
    (elems h.mem addrs).length = addrs.length ∧
    nextN h (iter l) addrs.length = (⟨none⟩ : Iter) ∧
    (∀ k, (iterNext h (nextN h (iter l) (addrs.length + k))).1 = none)
    := by
  refine ⟨fun fuel hf => iterN_chain_elems addrs l fuel hc hf,
    elems_length addrs l hc, nextN_chain addrs h l hc, ?_⟩
  intro k
  rw [nextN_add, nextN_chain addrs h l hc, nextN_none]
  rfl

/-- Witness for C9 on a one-node chain. -/
theorem iter_finite_one_per_node_witness :
    iterN (⟨[(0, ⟨4, none, 1⟩)], 1⟩ : Heap Nat) (iter (some 0)) 1
      = elems (⟨[(0, ⟨4, none, 1⟩)], 1⟩ : Heap Nat).mem [0] ∧
    nextN (⟨[(0, ⟨4, none, 1⟩)], 1⟩ : Heap Nat) (iter (some 0)) 1
      = (⟨none⟩ : Iter) :=
  ⟨(iter_finite_one_per_node (⟨[(0, ⟨4, none, 1⟩)], 1⟩ : Heap Nat)
      (some 0) [0] (by decide)).1 1 (by decide),
    (iter_finite_one_per_node (⟨[(0, ⟨4, none, 1⟩)], 1⟩ : Heap Nat)
      (some 0) [0] (by decide)).2.2.1⟩

/-- C10: the first output of a fresh iterator is exactly `head`: equal
optional values, and (on a valid chain) `none` precisely when the list
is empty. -/
theorem iter_next_agrees_head {α : Type} (h : Heap α) (l : Link)
    (addrs : List Nat) (hc : chainB h.mem l addrs = true) :
    (iterNext h (iter l)).1 = Third.head h l ∧
    ((iterNext h (iter l)).1 = none ↔ l = none) := by
  constructor
  · cases l with
    | none => rfl
    | some a =>
      cases hl : lookupA h.mem a with
      | none => simp [iterNext, iter, Heap.get, hl, Third.head]
      | some nd => simp [iterNext, iter, Heap.get, hl, Third.head]
  · constructor
    · intro hn
      cases l with
      | none => rfl
      | some a =>
        obtain ⟨rest, hr⟩ := chainB_some_shape hc
        subst hr
        simp only [chainB, beq_self_eq_true, Bool.true_and] at hc
        cases hl : lookupA h.mem a with
        | none => rw [hl] at hc; simp at hc
        | some nd => simp [iterNext, iter, Heap.get, hl] at hn
    · intro hn
      subst hn
      rfl

/-- Witness for C10 on a one-node chain. -/
theorem iter_next_agrees_head_witness :
    (iterNext (⟨[(0, ⟨9, none, 1⟩)], 1⟩ : Heap Nat) (iter (some 0))).1
      = Third.head (⟨[(0, ⟨9, none, 1⟩)], 1⟩ : Heap Nat) (some 0) :=
  (iter_next_agrees_head (⟨[(0, ⟨9, none, 1⟩)], 1⟩ : Heap Nat) (some 0)
    [0] (by decide)).1

end Third
